import Mathlib

/-!
Verification of the distrikv storage engine and startup logic.

The Go source keeps all persistent state in a bolt database with two
buckets, "default" (primary data) and "replication" (the outbox).  Bolt
buckets are ordered maps from byte strings to byte strings; we embed a
bucket as an association list of (key, value) pairs kept strictly sorted
by the lexicographic byte order, which is exactly the order in which a
bolt cursor iterates.  Byte strings are lists of naturals.

Fallible Go functions returning `error` are embedded as `Except String`,
carrying the exact message built by `errors.New` in the source; a bolt
`Update` transaction that returns an error commits nothing, so an
`Except.error` result carries no new database state.
-/

/-- Byte strings, the keys and values of the store. -/
abbrev Bytes := List Nat

/-- Lexicographic byte order, the order bolt keeps bucket keys in. -/
def bytesLt : Bytes → Bytes → Bool
  | [], [] => false
  | [], _ :: _ => true
  | _ :: _, [] => false
  | a :: as, b :: bs => if a < b then true else if b < a then false else bytesLt as bs

/-- A bolt bucket: an association list sorted strictly by `bytesLt` on keys. -/
abbrev Bucket := List (Bytes × Bytes)

/-- The sortedness invariant bolt maintains on every bucket. -/
def BSorted (b : Bucket) : Prop :=
  List.Pairwise (fun p q : Bytes × Bytes => bytesLt p.1 q.1 = true) b

/-- Bucket Put: insert or overwrite, keeping the list sorted. -/
def bPut : Bucket → Bytes → Bytes → Bucket
  | [], k, v => [(k, v)]
  | (k2, v2) :: rest, k, v =>
    if bytesLt k k2 then (k, v) :: (k2, v2) :: rest
    else if k = k2 then (k, v) :: rest
    else (k2, v2) :: bPut rest k v

/-- Bucket Get: `none` embeds the nil slice bolt returns for an absent key. -/
def bGet : Bucket → Bytes → Option Bytes
  | [], _ => none
  | (k2, v2) :: rest, k => if k = k2 then some v2 else bGet rest k

/-- Bucket Delete: remove the entry for the key, if present. -/
def bDelete : Bucket → Bytes → Bucket
  | [], _ => []
  | (k2, v2) :: rest, k => if k = k2 then rest else (k2, v2) :: bDelete rest k

/-- Cursor().First(): the (nil, nil) pair on an empty bucket, else the
entry with the smallest key, which is the head of the sorted list. -/
def bFirst : Bucket → Option Bytes × Option Bytes
  | [] => (none, none)
  | (k, v) :: _ => (some k, some v)

section BytesLtLemmas

theorem bytesLt_irrefl (a : Bytes) : bytesLt a a = false := by
  induction a with
  | nil => rfl
  | cons x xs ih => simp [bytesLt, ih]

theorem ne_of_bytesLt {a b : Bytes} (h : bytesLt a b = true) : a ≠ b := by
  intro e
  subst e
  rw [bytesLt_irrefl] at h
  exact Bool.false_ne_true h

theorem bytesLt_trans {a b c : Bytes} (hab : bytesLt a b = true)
    (hbc : bytesLt b c = true) : bytesLt a c = true := by
  induction a generalizing b c with
  | nil =>
    cases b with
    | nil => simp [bytesLt] at hab
    | cons y ys =>
      cases c with
      | nil => simp [bytesLt] at hbc
      | cons z zs => simp [bytesLt]
  | cons x xs ih =>
    cases b with
    | nil => simp [bytesLt] at hab
    | cons y ys =>
      cases c with
      | nil => simp [bytesLt] at hbc
      | cons z zs =>
        simp only [bytesLt] at hab hbc ⊢
        by_cases hxy : x < y
        · by_cases hyz : y < z
          · simp [Nat.lt_trans hxy hyz]
          · simp only [if_neg hyz] at hbc
            by_cases hzy : z < y
            · simp [hzy] at hbc
            · have hyz2 : y = z := Nat.le_antisymm (Nat.le_of_not_lt hzy) (Nat.le_of_not_lt hyz)
              subst hyz2
              simp [hxy]
        · simp only [if_neg hxy] at hab
          by_cases hyx : y < x
          · simp [hyx] at hab
          · have hxy2 : x = y := Nat.le_antisymm (Nat.le_of_not_lt hyx) (Nat.le_of_not_lt hxy)
            subst hxy2
            simp only [if_pos, if_neg hxy] at hab ⊢
            by_cases hyz : x < z
            · simp [hyz]
            · simp only [if_neg hyz] at hbc ⊢
              by_cases hzy : z < x
              · simp [hzy] at hbc
              · simp only [if_neg hzy] at hbc ⊢
                exact ih hab hbc

theorem bytesLt_total {a b : Bytes} (h : bytesLt a b = false) (hne : a ≠ b) :
    bytesLt b a = true := by
  induction a generalizing b with
  | nil =>
    cases b with
    | nil => exact absurd rfl hne
    | cons y ys => simp [bytesLt] at h
  | cons x xs ih =>
    cases b with
    | nil => simp [bytesLt]
    | cons y ys =>
      simp only [bytesLt] at h ⊢
      by_cases hxy : x < y
      · simp [hxy] at h
      · simp only [if_neg hxy] at h
        by_cases hyx : y < x
        · simp [hyx]
        · have hxy2 : x = y := Nat.le_antisymm (Nat.le_of_not_lt hyx) (Nat.le_of_not_lt hxy)
          subst hxy2
          simp only [if_neg hxy] at h ⊢
          have hne2 : xs ≠ ys := by
            intro e; exact hne (by rw [e])
          exact ih h hne2

end BytesLtLemmas

section BucketLemmas

theorem bGet_bPut_self (b : Bucket) (k v : Bytes) : bGet (bPut b k v) k = some v := by
  induction b with
  | nil => simp [bPut, bGet]
  | cons p rest ih =>
    obtain ⟨k2, v2⟩ := p
    simp only [bPut]
    by_cases hlt : bytesLt k k2 = true
    · simp [hlt, bGet]
    · simp only [hlt, if_neg]
      by_cases he : k = k2
      · simp [he, bGet]
      · simp [he, bGet, ih]

theorem bGet_bPut_ne (b : Bucket) (k v k2 : Bytes) (hne : k2 ≠ k) :
    bGet (bPut b k v) k2 = bGet b k2 := by
  induction b with
  | nil => simp [bPut, bGet, hne]
  | cons p rest ih =>
    obtain ⟨k3, v3⟩ := p
    simp only [bPut]
    by_cases hlt : bytesLt k k3 = true
    · simp [hlt, bGet, hne]
    · simp only [hlt, if_neg]
      by_cases he : k = k3
      · subst he
        simp [bGet, hne]
      · by_cases h2 : k2 = k3
        · simp [he, bGet, h2]
        · simp [he, bGet, h2, ih]

theorem mem_bPut {b : Bucket} {k v : Bytes} {p : Bytes × Bytes}
    (h : p ∈ bPut b k v) : p = (k, v) ∨ p ∈ b := by
  induction b with
  | nil =>
    simp [bPut] at h
    exact Or.inl h
  | cons q rest ih =>
    obtain ⟨k2, v2⟩ := q
    simp only [bPut] at h
    by_cases hlt : bytesLt k k2 = true
    · rw [if_pos hlt] at h
      rcases List.mem_cons.mp h with h | h
      · exact Or.inl h
      · exact Or.inr h
    · rw [if_neg hlt] at h
      by_cases he : k = k2
      · rw [if_pos he] at h
        rcases List.mem_cons.mp h with h | h
        · exact Or.inl h
        · exact Or.inr (List.mem_cons_of_mem _ h)
      · rw [if_neg he] at h
        rcases List.mem_cons.mp h with h | h
        · exact Or.inr (by rw [h]; exact List.mem_cons_self _ _)
        · rcases ih h with h2 | h2
          · exact Or.inl h2
          · exact Or.inr (List.mem_cons_of_mem _ h2)

theorem BSorted_nil : BSorted [] := List.Pairwise.nil

theorem BSorted_cons {p : Bytes × Bytes} {rest : Bucket} (h : BSorted (p :: rest)) :
    (∀ q ∈ rest, bytesLt p.1 q.1 = true) ∧ BSorted rest := by
  unfold BSorted at h
  rw [List.pairwise_cons] at h
  exact h

theorem BSorted_cons_of {p : Bytes × Bytes} {rest : Bucket}
    (hhead : ∀ q ∈ rest, bytesLt p.1 q.1 = true) (htail : BSorted rest) :
    BSorted (p :: rest) := by
  unfold BSorted at htail ⊢
  rw [List.pairwise_cons]
  exact ⟨hhead, htail⟩

theorem BSorted_bPut {b : Bucket} (hs : BSorted b) (k v : Bytes) :
    BSorted (bPut b k v) := by
  induction b with
  | nil =>
    unfold BSorted
    simp [bPut]
  | cons p rest ih =>
    obtain ⟨k2, v2⟩ := p
    obtain ⟨hhead, htail⟩ := BSorted_cons hs
    simp only [bPut]
    by_cases hlt : bytesLt k k2 = true
    · rw [if_pos hlt]
      refine BSorted_cons_of ?_ (BSorted_cons_of hhead htail)
      intro q hq
      rcases List.mem_cons.mp hq with h | h
      · rw [h]; exact hlt
      · exact bytesLt_trans hlt (hhead q h)
    · rw [if_neg hlt]
      by_cases he : k = k2
      · rw [if_pos he]
        refine BSorted_cons_of ?_ htail
        intro q hq
        rw [he]
        exact hhead q hq
      · rw [if_neg he]
        refine BSorted_cons_of ?_ (ih htail)
        intro q hq
        rcases mem_bPut hq with h | h
        · rw [h]
          exact bytesLt_total (Bool.of_not_eq_true hlt) he
        · exact hhead q h

end BucketLemmas

section DeleteLemmas

theorem bDelete_sublist (b : Bucket) (k : Bytes) : (bDelete b k).Sublist b := by
  induction b with
  | nil => simp [bDelete]
  | cons p rest ih =>
    obtain ⟨k2, v2⟩ := p
    simp only [bDelete]
    by_cases he : k = k2
    · rw [if_pos he]
      exact List.sublist_cons_self _ _
    · rw [if_neg he]
      exact ih.cons₂ _

theorem BSorted_bDelete {b : Bucket} (hs : BSorted b) (k : Bytes) :
    BSorted (bDelete b k) := by
  unfold BSorted at hs ⊢
  exact hs.sublist (bDelete_sublist b k)

theorem bGet_eq_none_of_forall_ne {b : Bucket} {k : Bytes}
    (h : ∀ p ∈ b, p.1 ≠ k) : bGet b k = none := by
  induction b with
  | nil => rfl
  | cons p rest ih =>
    obtain ⟨k2, v2⟩ := p
    have hne : k ≠ k2 := fun e => h (k2, v2) (List.mem_cons_self _ _) e.symm
    simp only [bGet, if_neg hne]
    exact ih (fun q hq => h q (List.mem_cons_of_mem _ hq))

theorem bGet_mem {b : Bucket} {k v : Bytes} (h : bGet b k = some v) : (k, v) ∈ b := by
  induction b with
  | nil => simp [bGet] at h
  | cons p rest ih =>
    obtain ⟨k2, v2⟩ := p
    simp only [bGet] at h
    by_cases he : k = k2
    · rw [if_pos he] at h
      rw [he, Option.some_inj.mp h]
      exact List.mem_cons_self _ _
    · rw [if_neg he] at h
      exact List.mem_cons_of_mem _ (ih h)

theorem bGet_bDelete_self {b : Bucket} (hs : BSorted b) (k : Bytes) :
    bGet (bDelete b k) k = none := by
  induction b with
  | nil => rfl
  | cons p rest ih =>
    obtain ⟨k2, v2⟩ := p
    obtain ⟨hhead, htail⟩ := BSorted_cons hs
    simp only [bDelete]
    by_cases he : k = k2
    · rw [if_pos he]
      refine bGet_eq_none_of_forall_ne (fun q hq e => ?_)
      have := hhead q hq
      rw [e, he] at this
      rw [bytesLt_irrefl] at this
      exact Bool.false_ne_true this
    · rw [if_neg he]
      simp only [bGet, if_neg he]
      exact ih htail

theorem bGet_bDelete_ne (b : Bucket) (k k2 : Bytes) (hne : k2 ≠ k) :
    bGet (bDelete b k) k2 = bGet b k2 := by
  induction b with
  | nil => rfl
  | cons p rest ih =>
    obtain ⟨k3, v3⟩ := p
    simp only [bDelete]
    by_cases he : k = k3
    · rw [if_pos he]
      have h2 : k2 ≠ k3 := fun e => hne (by rw [e, he])
      simp only [bGet, if_neg h2]
    · rw [if_neg he]
      by_cases h2 : k2 = k3
      · simp only [bGet, if_pos h2]
      · simp only [bGet, if_neg h2]
        exact ih

end DeleteLemmas

/-- The open bolt database of db.go: the two buckets plus the readOnly flag
of the Database struct.  `NewDatabase` opens a fresh store and
`createDefaultBucket` ensures both buckets exist (empty when fresh). -/
structure Database where
  defaultBucket : Bucket
  replicaBucket : Bucket
  readOnly : Bool

/-- Constructor on a fresh path: both buckets created empty, flag as given. -/
def NewDatabase (readOnly : Bool) : Database :=
  { defaultBucket := [], replicaBucket := [], readOnly := readOnly }

/-- SetKey: refuses in read-only mode, otherwise one Update transaction
that puts the value under the key in both the default and the replication
bucket; either both writes commit or the error carries no new state. -/
def SetKey (d : Database) (key value : Bytes) : Except String Database :=
  if d.readOnly then Except.error ("read only mode")
  else Except.ok
    { d with
      defaultBucket := bPut d.defaultBucket key value
      replicaBucket := bPut d.replicaBucket key value }

/-- GetKey: a View transaction reading the default bucket; the callback
always returns nil, so the call never fails and an absent key yields the
nil slice, embedded as `none`. -/
def GetKey (d : Database) (key : Bytes) : Option Bytes :=
  bGet d.defaultBucket key

/-- copyByteSlice: nil maps to nil, otherwise an element-wise copy into a
fresh slice of the same length. -/
def copyByteSlice : Option Bytes → Option Bytes
  | none => none
  | some src => some (src.map id)

/-- GetNextForReplication: a View transaction taking the cursor-first
entry of the replication bucket and returning defensive copies; the
callback never errors, so the trailing error branch is dead. -/
def GetNextForReplication (d : Database) : Option Bytes × Option Bytes :=
  let kv := bFirst d.replicaBucket
  (copyByteSlice kv.1, copyByteSlice kv.2)

/-- DeleteReplicationKey: one Update transaction that reads the current
value in the replication bucket, fails if the key is absent or the stored
value differs, and deletes the entry otherwise. -/
def DeleteReplicationKey (d : Database) (key value : Bytes) : Except String Database :=
  match bGet d.replicaBucket key with
  | none => Except.error ("key does not exist")
  | some v =>
    if v = value then
      Except.ok { d with replicaBucket := bDelete d.replicaBucket key }
    else
      Except.error ("value does not match")

/-- Phase one of DeleteExtraKeys: the View transaction walking the default
bucket with ForEach and collecting, in iteration order, every key on which
isExtra holds. -/
def collectExtraKeys (b : Bucket) (isExtra : Bytes → Bool) : List Bytes :=
  (b.filter (fun p => isExtra p.1)).map (fun p => p.1)

/-- Phase two of DeleteExtraKeys: the Update transaction deleting the
collected keys one by one. -/
def deleteCollected (b : Bucket) (keys : List Bytes) : Bucket :=
  keys.foldl bDelete b

/-- DeleteExtraKeys: scan in a read transaction, then delete the collected
set in a separate write transaction.  Only the default bucket is touched. -/
def DeleteExtraKeys (d : Database) (isExtra : Bytes → Bool) : Database :=
  { d with
    defaultBucket :=
      deleteCollected d.defaultBucket (collectExtraKeys d.defaultBucket isExtra) }

section FilterLemmas

theorem filter_nil_of_none {b : Bucket} {f : Bytes × Bytes → Bool}
    (h : ∀ p ∈ b, f p = false) : b.filter f = [] := by
  induction b with
  | nil => rfl
  | cons p rest ih =>
    have hp := h p (List.mem_cons_self _ _)
    simp only [List.filter, hp]
    exact ih (fun q hq => h q (List.mem_cons_of_mem _ hq))

/-- In a sorted bucket, putting a key leaves exactly one entry for it:
the filter on that key is the singleton just written. -/
theorem filter_bPut {b : Bucket} (hs : BSorted b) (k v : Bytes) :
    (bPut b k v).filter (fun p => decide (p.1 = k)) = [(k, v)] := by
  induction b with
  | nil => simp [bPut]
  | cons p rest ih =>
    obtain ⟨k2, v2⟩ := p
    obtain ⟨hhead, htail⟩ := BSorted_cons hs
    simp only [bPut]
    by_cases hlt : bytesLt k k2 = true
    · rw [if_pos hlt]
      have hnone : ((k2, v2) :: rest).filter (fun p => decide (p.1 = k)) = [] := by
        refine filter_nil_of_none (fun q hq => ?_)
        rcases List.mem_cons.mp hq with h | h
        · rw [h]
          simp only [decide_eq_false_iff_not]
          exact fun e => ne_of_bytesLt hlt e.symm
        · simp only [decide_eq_false_iff_not]
          intro e
          exact ne_of_bytesLt (bytesLt_trans hlt (hhead q h)) e.symm
      simp only [List.filter, decide_eq_true_eq]
      simp only [List.filter] at hnone
      simp [hnone]
    · rw [if_neg hlt]
      by_cases he : k = k2
      · rw [if_pos he]
        have hnone : rest.filter (fun p => decide (p.1 = k)) = [] := by
          refine filter_nil_of_none (fun q hq => ?_)
          simp only [decide_eq_false_iff_not]
          intro e
          have := hhead q hq
          rw [e, he] at this
          rw [bytesLt_irrefl] at this
          exact Bool.false_ne_true this
        simp [List.filter, hnone]
      · rw [if_neg he]
        have h2 : (decide ((k2, v2).1 = k)) = false := by
          simp only [decide_eq_false_iff_not]
          exact fun e => he e.symm
        simp only [List.filter, h2]
        exact ih htail

end FilterLemmas

section CopyAndCollect

theorem copyByteSlice_none : copyByteSlice none = none := rfl

theorem copyByteSlice_some (s : Bytes) : copyByteSlice (some s) = some s := by
  simp [copyByteSlice]

theorem mem_collectExtraKeys {b : Bucket} {isExtra : Bytes → Bool} {k : Bytes} :
    k ∈ collectExtraKeys b isExtra ↔ isExtra k = true ∧ ∃ v, (k, v) ∈ b := by
  unfold collectExtraKeys
  rw [List.mem_map]
  constructor
  · rintro ⟨p, hp, rfl⟩
    rw [List.mem_filter] at hp
    exact ⟨hp.2, p.2, by simpa using hp.1⟩
  · rintro ⟨hx, v, hv⟩
    exact ⟨(k, v), List.mem_filter.mpr ⟨hv, hx⟩, rfl⟩

theorem bGet_deleteCollected (keys : List Bytes) :
    ∀ (b : Bucket), BSorted b → ∀ k : Bytes,
      bGet (deleteCollected b keys) k = if k ∈ keys then none else bGet b k := by
  induction keys with
  | nil =>
    intro b _ k
    simp [deleteCollected]
  | cons k0 rest ih =>
    intro b hs k
    have hstep : deleteCollected b (k0 :: rest) = deleteCollected (bDelete b k0) rest := rfl
    rw [hstep, ih (bDelete b k0) (BSorted_bDelete hs k0) k]
    by_cases he : k = k0
    · subst he
      by_cases hmem : k ∈ rest
      · simp [hmem]
      · simp [hmem, bGet_bDelete_self hs k]
    · by_cases hmem : k ∈ rest
      · simp [hmem]
      · simp [hmem, he, bGet_bDelete_ne b k0 k he]

end CopyAndCollect

/-- The storage operations a running node performs against an open handle,
excluding the rebalancing cleanup: writes, reads, replication peeks and
replication acknowledgments. -/
inductive Op where
  | setOp (k v : Bytes)
  | getOp (k : Bytes)
  | getNextOp
  | ackOp (k v : Bytes)

/-- Run one operation against the store.  A failed Update transaction in
bolt rolls back, so on an error result the state is unchanged; reads never
change state. -/
def applyOp (d : Database) : Op → Database
  | Op.setOp k v =>
    match SetKey d k v with
    | Except.ok d2 => d2
    | Except.error _ => d
  | Op.getOp _ => d
  | Op.getNextOp => d
  | Op.ackOp k v =>
    match DeleteReplicationKey d k v with
    | Except.ok d2 => d2
    | Except.error _ => d

/-- Run a whole sequence of operations. -/
def runOps (d : Database) (ops : List Op) : Database :=
  ops.foldl applyOp d

/-- The structural invariant of an open store: both buckets are sorted, and
every outbox entry mirrors the primary entry of the same key. -/
def StoreInv (d : Database) : Prop :=
  BSorted d.defaultBucket ∧ BSorted d.replicaBucket ∧
    ∀ k v : Bytes, bGet d.replicaBucket k = some v → bGet d.defaultBucket k = some v

theorem storeInv_new (ro : Bool) : StoreInv (NewDatabase ro) := by
  refine ⟨BSorted_nil, BSorted_nil, ?_⟩
  intro k v h
  simp [NewDatabase, bGet] at h

theorem storeInv_applyOp {d : Database} (h : StoreInv d) (op : Op) :
    StoreInv (applyOp d op) := by
  obtain ⟨hd, hr, hm⟩ := h
  cases op with
  | getOp k => exact ⟨hd, hr, hm⟩
  | getNextOp => exact ⟨hd, hr, hm⟩
  | setOp k v =>
    by_cases hro : d.readOnly = true
    · have hset : SetKey d k v = Except.error ("read only mode") := by
        simp [SetKey, hro]
      simp only [applyOp, hset]
      exact ⟨hd, hr, hm⟩
    · have hset : SetKey d k v = Except.ok
        { d with
          defaultBucket := bPut d.defaultBucket k v
          replicaBucket := bPut d.replicaBucket k v } := by
        simp [SetKey, hro]
      simp only [applyOp, hset]
      refine ⟨BSorted_bPut hd k v, BSorted_bPut hr k v, ?_⟩
      intro k2 v2 hg
      have hg2 : bGet (bPut d.replicaBucket k v) k2 = some v2 := hg
      show bGet (bPut d.defaultBucket k v) k2 = some v2
      by_cases he : k2 = k
      · subst he
        rw [bGet_bPut_self] at hg2
        rw [bGet_bPut_self]
        exact hg2
      · rw [bGet_bPut_ne _ _ _ _ he] at hg2
        rw [bGet_bPut_ne _ _ _ _ he]
        exact hm k2 v2 hg2
  | ackOp k v =>
    cases hv : bGet d.replicaBucket k with
    | none =>
      have hdel : DeleteReplicationKey d k v = Except.error ("key does not exist") := by
        simp [DeleteReplicationKey, hv]
      simp only [applyOp, hdel]
      exact ⟨hd, hr, hm⟩
    | some w =>
      by_cases he : w = v
      · have hdel : DeleteReplicationKey d k v = Except.ok
          { d with replicaBucket := bDelete d.replicaBucket k } := by
          simp [DeleteReplicationKey, hv, he]
        simp only [applyOp, hdel]
        refine ⟨hd, BSorted_bDelete hr k, ?_⟩
        intro k2 v2 hg
        have hg2 : bGet (bDelete d.replicaBucket k) k2 = some v2 := hg
        show bGet d.defaultBucket k2 = some v2
        by_cases h2 : k2 = k
        · subst h2
          rw [bGet_bDelete_self hr k2] at hg2
          exact absurd hg2 (by simp)
        · rw [bGet_bDelete_ne _ _ _ h2] at hg2
          exact hm k2 v2 hg2
      · have hdel : DeleteReplicationKey d k v = Except.error ("value does not match") := by
          simp [DeleteReplicationKey, hv, he]
        simp only [applyOp, hdel]
        exact ⟨hd, hr, hm⟩

theorem storeInv_runOps {d : Database} (h : StoreInv d) (ops : List Op) :
    StoreInv (runOps d ops) := by
  induction ops generalizing d with
  | nil => exact h
  | cons op rest ih =>
    have hstep : runOps d (op :: rest) = runOps (applyOp d op) rest := rfl
    rw [hstep]
    exact ih (storeInv_applyOp h op)

/-- Modelled from the spec: the ShardTable of section 4.1.  The config and
httpd packages holding the concrete Go type are not under src; only the
count and the index of this node matter to the ownership function. -/
structure ShardTable where
  Count : Nat
  Index : Nat

/-- Modelled from the spec: a fixed, portable, non-cryptographic hash over
the raw key bytes (the 64-bit FNV family, as hinted by the comment
hash(key) % count = current index in main.go), with every multiplication
reduced modulo 2 to the 64. -/
def fnv64OffsetBasis : Nat := 14695981039346656037

/-- The 64-bit FNV prime. -/
def fnv64Prime : Nat := 1099511628211

/-- Modelled from the spec: the byte-wise FNV-64 state update, folded over
the raw key bytes starting from the offset basis. -/
def fnv64 (key : Bytes) : Nat :=
  key.foldl (fun h b => ((h * fnv64Prime) % 2 ^ 64) ^^^ (b % 256)) fnv64OffsetBasis

/-- Modelled from the spec: ownerIndex reduces the key hash modulo the
shard count; it reads nothing but the raw key bytes and the count. -/
def ownerIndex (t : ShardTable) (key : Bytes) : Nat :=
  fnv64 key % t.Count

/-- Modelled from the spec: isOwnedByMe compares the owner with this
node, and isExtra is its negation, used only by the cleanup pass. -/
def isOwnedByMe (t : ShardTable) (key : Bytes) : Bool :=
  ownerIndex t key == t.Index

/-- Modelled from the spec: the cleanup predicate. -/
def isExtraKey (t : ShardTable) (key : Bytes) : Bool :=
  ! isOwnedByMe t key

/-- The command-line flags of main.go; `none` embeds a flag the operator
did not pass, in which case the declared default applies. -/
structure Flags where
  dbLocation : Option String
  httpAddr : Option String
  configFileName : Option String
  shard : Option String

/-- Flag resolution: db-location, http-addr and shard default to the empty
string, config-file defaults to sharding.toml. -/
def resolvedDbLocation (f : Flags) : String := (f.dbLocation).getD ("")

/-- Resolved http-addr flag. -/
def resolvedHttpAddr (f : Flags) : String := (f.httpAddr).getD ("")

/-- Resolved config-file flag, with its non-empty declared default. -/
def resolvedConfigFileName (f : Flags) : String := (f.configFileName).getD ("sharding.toml")

/-- Resolved shard flag. -/
def resolvedShard (f : Flags) : String := (f.shard).getD ("")

/-- The init function of main.go: after flag.Parse it calls log.Fatal,
aborting the process, exactly when http-addr, db-location or shard
resolved to the empty string.  The config-file flag is not checked. -/
def initFatal (f : Flags) : Bool :=
  (resolvedHttpAddr f == "") || (resolvedDbLocation f == "") || (resolvedShard f == "")

/-- Claim C3: a successful SetKey for a key, followed by GetKey on the
resulting state with no intervening write, returns the value just
written. -/
theorem setKey_getKey_roundtrip (d d2 : Database) (k v : Bytes)
    (h : SetKey d k v = Except.ok d2) : GetKey d2 k = some v := by
  unfold SetKey at h
  by_cases hro : d.readOnly = true
  · rw [if_pos hro] at h
    exact absurd h (by simp)
  · rw [if_neg hro] at h
    have he : ({ d with
        defaultBucket := bPut d.defaultBucket k v
        replicaBucket := bPut d.replicaBucket k v } : Database) = d2 := by
      injection h
    rw [← he]
    show bGet (bPut d.defaultBucket k v) k = some v
    exact bGet_bPut_self _ _ _

/-- Witness for claim C3 at a concrete store, key and value. -/
theorem setKey_getKey_roundtrip_witness :
    SetKey (NewDatabase false) [107] [118] = Except.ok
      { defaultBucket := [([107], [118])]
        replicaBucket := [([107], [118])]
        readOnly := false } ∧
    GetKey { defaultBucket := [([107], [118])]
             replicaBucket := [([107], [118])]
             readOnly := false } [107] = some [118] :=
  ⟨rfl, setKey_getKey_roundtrip (NewDatabase false) _ [107] [118] rfl⟩

/-- Claim C6: on a read-only handle SetKey fails with the read-only error
and, the transaction never starting, commits nothing to either region,
while GetKey still works on the same handle and yields the not-found
result for a key never written. -/
theorem readOnly_setKey_fails (d : Database) (k v k2 : Bytes)
    (h : d.readOnly = true) :
    SetKey d k v = Except.error ("read only mode") ∧
    applyOp d (Op.setOp k v) = d ∧
    GetKey (NewDatabase true) k2 = none := by
  have hset : SetKey d k v = Except.error ("read only mode") := by
    simp [SetKey, h]
  refine ⟨hset, ?_, rfl⟩
  simp [applyOp, hset]

/-- Witness for claim C6 on a freshly opened read-only handle. -/
theorem readOnly_setKey_fails_witness :
    (NewDatabase true).readOnly = true ∧
    (SetKey (NewDatabase true) [1] [2] = Except.error ("read only mode") ∧
      applyOp (NewDatabase true) (Op.setOp [1] [2]) = NewDatabase true ∧
      GetKey (NewDatabase true) [3] = none) :=
  ⟨rfl, readOnly_setKey_fails (NewDatabase true) [1] [2] [3] rfl⟩

/-- Claim C9: DeleteExtraKeys writes only the default bucket; the
replication outbox after the call is the very bucket from before it, so
every pending entry survives with its value, including entries whose keys
were just deleted from the primary region. -/
theorem deleteExtraKeys_outbox_frame (d : Database) (isExtra : Bytes → Bool) :
    (DeleteExtraKeys d isExtra).replicaBucket = d.replicaBucket ∧
    ∀ k : Bytes, bGet (DeleteExtraKeys d isExtra).replicaBucket k =
      bGet d.replicaBucket k :=
  ⟨rfl, fun _ => rfl⟩

/-- Claim C7: ownerIndex is deterministic and depends on nothing but the
raw key bytes and the shard count: two independently built tables with
equal counts agree on every key, and the value is the fixed key hash
reduced modulo the count. -/
theorem ownerIndex_deterministic (t1 t2 : ShardTable) (k : Bytes)
    (h : t1.Count = t2.Count) :
    ownerIndex t1 k = ownerIndex t2 k ∧ ownerIndex t1 k = fnv64 k % t1.Count := by
  unfold ownerIndex
  rw [h]
  exact ⟨rfl, rfl⟩

/-- Witness for claim C7: two distinct tables over three shards agree on
the key alice. -/
theorem ownerIndex_deterministic_witness :
    (ShardTable.mk 3 1).Count = (ShardTable.mk 3 2).Count ∧
    (ownerIndex (ShardTable.mk 3 1) [97, 108, 105, 99, 101] =
        ownerIndex (ShardTable.mk 3 2) [97, 108, 105, 99, 101] ∧
      ownerIndex (ShardTable.mk 3 1) [97, 108, 105, 99, 101] =
        fnv64 [97, 108, 105, 99, 101] % (ShardTable.mk 3 1).Count) :=
  ⟨rfl, ownerIndex_deterministic (ShardTable.mk 3 1) (ShardTable.mk 3 2)
    [97, 108, 105, 99, 101] rfl⟩

/-- Claim C8 counterexample: with the storage path, listen address and
shard name all provided but the config-file flag absent, the startup
check of init does not abort, so absence of the configuration path is
not a fatal startup error. -/
theorem initFatal_config_absent_counterexample :
    (Flags.mk (some ("data.db")) (some ("127.0.0.1:8080")) none (some ("Xian"))).configFileName
        = none ∧
    initFatal (Flags.mk (some ("data.db")) (some ("127.0.0.1:8080")) none (some ("Xian")))
        = false :=
  ⟨rfl, rfl⟩

/-- Claim C8 amended: absence of the storage path, the listen address or
the shard name is a fatal startup error; the config-file flag carries the
non-empty default sharding.toml, so startup survives exactly when the
other three resolve to non-empty strings, whatever the config flag. -/
theorem initFatal_spec (f : Flags) :
    (f.httpAddr = none → initFatal f = true) ∧
    (f.dbLocation = none → initFatal f = true) ∧
    (f.shard = none → initFatal f = true) ∧
    (initFatal f = false ↔
      resolvedHttpAddr f ≠ "" ∧ resolvedDbLocation f ≠ "" ∧ resolvedShard f ≠ "") := by
  refine ⟨?_, ?_, ?_, ?_⟩
  · intro h
    simp [initFatal, resolvedHttpAddr, h]
  · intro h
    simp [initFatal, resolvedDbLocation, h]
  · intro h
    simp [initFatal, resolvedShard, h]
  · simp [initFatal]
    tauto

/-- Witness for the amended claim C8 at the flag set with nothing
provided, where all three checked flags trip the fatal check. -/
theorem initFatal_spec_witness :
    ((Flags.mk none none none none).httpAddr = none →
      initFatal (Flags.mk none none none none) = true) ∧
    ((Flags.mk none none none none).dbLocation = none →
      initFatal (Flags.mk none none none none) = true) ∧
    ((Flags.mk none none none none).shard = none →
      initFatal (Flags.mk none none none none) = true) ∧
    (initFatal (Flags.mk none none none none) = false ↔
      resolvedHttpAddr (Flags.mk none none none none) ≠ "" ∧
      resolvedDbLocation (Flags.mk none none none none) ≠ "" ∧
      resolvedShard (Flags.mk none none none none) ≠ "") :=
  initFatal_spec (Flags.mk none none none none)

/-- Claim C1: a successful SetKey commits both the primary write and the
outbox write of one transaction, leaving exactly one outbox entry for the
key holding the new value; a second SetKey of the same key before its
acknowledgment overwrites that pending value and still leaves exactly one
entry. -/
theorem setKey_outbox_overwrite (d : Database) (k v v2 : Bytes)
    (hro : d.readOnly = false) (hs : BSorted d.replicaBucket) :
    ∃ d1, SetKey d k v = Except.ok d1 ∧
      bGet d1.defaultBucket k = some v ∧
      bGet d1.replicaBucket k = some v ∧
      d1.replicaBucket.filter (fun p => decide (p.1 = k)) = [(k, v)] ∧
      ∃ d2, SetKey d1 k v2 = Except.ok d2 ∧
        bGet d2.defaultBucket k = some v2 ∧
        bGet d2.replicaBucket k = some v2 ∧
        d2.replicaBucket.filter (fun p => decide (p.1 = k)) = [(k, v2)] := by
  have h1 : SetKey d k v = Except.ok
      { d with
        defaultBucket := bPut d.defaultBucket k v
        replicaBucket := bPut d.replicaBucket k v } := by
    simp [SetKey, hro]
  refine ⟨_, h1, bGet_bPut_self _ _ _, bGet_bPut_self _ _ _, filter_bPut hs k v, ?_⟩
  have h2 : SetKey
      { d with
        defaultBucket := bPut d.defaultBucket k v
        replicaBucket := bPut d.replicaBucket k v } k v2 = Except.ok
      { d with
        defaultBucket := bPut (bPut d.defaultBucket k v) k v2
        replicaBucket := bPut (bPut d.replicaBucket k v) k v2 } := by
    simp [SetKey, hro]
  exact ⟨_, h2, bGet_bPut_self _ _ _, bGet_bPut_self _ _ _,
    filter_bPut (BSorted_bPut hs k v) k v2⟩

/-- Witness for claim C1 on a fresh writable store with two successive
writes to the same key. -/
theorem setKey_outbox_overwrite_witness :
    (NewDatabase false).readOnly = false ∧
    BSorted (NewDatabase false).replicaBucket ∧
    ∃ d1, SetKey (NewDatabase false) [10] [1] = Except.ok d1 ∧
      bGet d1.defaultBucket [10] = some [1] ∧
      bGet d1.replicaBucket [10] = some [1] ∧
      d1.replicaBucket.filter (fun p => decide (p.1 = [10])) = [([10], [1])] ∧
      ∃ d2, SetKey d1 [10] [2] = Except.ok d2 ∧
        bGet d2.defaultBucket [10] = some [2] ∧
        bGet d2.replicaBucket [10] = some [2] ∧
        d2.replicaBucket.filter (fun p => decide (p.1 = [10])) = [([10], [2])] :=
  ⟨rfl, BSorted_nil, setKey_outbox_overwrite (NewDatabase false) [10] [1] [2] rfl BSorted_nil⟩

/-- Claim C2: DeleteReplicationKey succeeds exactly when the outbox holds
the given key with the given value; success removes that entry and leaves
every other outbox entry and the whole primary bucket alone; a present
key with a different stored value fails with the mismatch error; an
absent key fails with the not-exists error. -/
theorem deleteReplicationKey_ack (d : Database) (k v : Bytes)
    (hs : BSorted d.replicaBucket) :
    ((∃ d2, DeleteReplicationKey d k v = Except.ok d2) ↔
      bGet d.replicaBucket k = some v) ∧
    (bGet d.replicaBucket k = none →
      DeleteReplicationKey d k v = Except.error ("key does not exist")) ∧
    (∀ w, bGet d.replicaBucket k = some w → w ≠ v →
      DeleteReplicationKey d k v = Except.error ("value does not match")) ∧
    (∀ d2, DeleteReplicationKey d k v = Except.ok d2 →
      bGet d2.replicaBucket k = none ∧
      (∀ k2, k2 ≠ k → bGet d2.replicaBucket k2 = bGet d.replicaBucket k2) ∧
      d2.defaultBucket = d.defaultBucket ∧ d2.readOnly = d.readOnly) := by
  cases hv : bGet d.replicaBucket k with
  | none =>
    have hdel : DeleteReplicationKey d k v = Except.error ("key does not exist") := by
      simp [DeleteReplicationKey, hv]
    refine ⟨?_, fun _ => hdel, ?_, ?_⟩
    · constructor
      · rintro ⟨d2, h2⟩
        rw [hdel] at h2
        exact absurd h2 (by simp)
      · intro h2
        exact absurd h2 (by simp)
    · intro w hw
      exact absurd hw (by simp)
    · intro d2 h2
      rw [hdel] at h2
      exact absurd h2 (by simp)
  | some w =>
    by_cases he : w = v
    · have hdel : DeleteReplicationKey d k v = Except.ok
          { d with replicaBucket := bDelete d.replicaBucket k } := by
        simp [DeleteReplicationKey, hv, he]
      refine ⟨⟨fun _ => by rw [he], fun _ => ⟨_, hdel⟩⟩, ?_, ?_, ?_⟩
      · intro h2
        exact absurd h2 (by simp)
      · intro w2 hw2 hne
        exact absurd ((Option.some_inj.mp hw2).symm.trans he) hne
      · intro d2 h2
        rw [hdel] at h2
        have he2 : ({ d with replicaBucket := bDelete d.replicaBucket k } : Database)
            = d2 := by
          injection h2
        rw [← he2]
        refine ⟨bGet_bDelete_self hs k, ?_, rfl, rfl⟩
        intro k2 hne
        show bGet (bDelete d.replicaBucket k) k2 = bGet d.replicaBucket k2
        exact bGet_bDelete_ne _ _ _ hne
    · have hdel : DeleteReplicationKey d k v = Except.error ("value does not match") := by
        simp [DeleteReplicationKey, hv, he]
      refine ⟨?_, ?_, fun _ _ _ => hdel, ?_⟩
      · constructor
        · rintro ⟨d2, h2⟩
          rw [hdel] at h2
          exact absurd h2 (by simp)
        · intro h2
          exact absurd (Option.some_inj.mp h2) he
      · intro h2
        exact absurd h2 (by simp)
      · intro d2 h2
        rw [hdel] at h2
        exact absurd h2 (by simp)

/-- Witness for claim C2 on a store whose outbox holds one pending entry,
acknowledged with the matching value. -/
theorem deleteReplicationKey_ack_witness :
    BSorted (Database.mk [([5], [7])] [([5], [7])] false).replicaBucket ∧
    (((∃ d2, DeleteReplicationKey (Database.mk [([5], [7])] [([5], [7])] false) [5] [7]
          = Except.ok d2) ↔
        bGet (Database.mk [([5], [7])] [([5], [7])] false).replicaBucket [5] = some [7]) ∧
      (bGet (Database.mk [([5], [7])] [([5], [7])] false).replicaBucket [5] = none →
        DeleteReplicationKey (Database.mk [([5], [7])] [([5], [7])] false) [5] [7]
          = Except.error ("key does not exist")) ∧
      (∀ w, bGet (Database.mk [([5], [7])] [([5], [7])] false).replicaBucket [5] = some w →
        w ≠ [7] →
        DeleteReplicationKey (Database.mk [([5], [7])] [([5], [7])] false) [5] [7]
          = Except.error ("value does not match")) ∧
      (∀ d2, DeleteReplicationKey (Database.mk [([5], [7])] [([5], [7])] false) [5] [7]
          = Except.ok d2 →
        bGet d2.replicaBucket [5] = none ∧
        (∀ k2, k2 ≠ [5] → bGet d2.replicaBucket k2 =
          bGet (Database.mk [([5], [7])] [([5], [7])] false).replicaBucket k2) ∧
        d2.defaultBucket = (Database.mk [([5], [7])] [([5], [7])] false).defaultBucket ∧
        d2.readOnly = (Database.mk [([5], [7])] [([5], [7])] false).readOnly)) :=
  ⟨by unfold BSorted; decide,
    deleteReplicationKey_ack (Database.mk [([5], [7])] [([5], [7])] false) [5] [7]
      (by unfold BSorted; decide)⟩

/-- Claim C4: with an empty outbox GetNextForReplication returns the
(nil, nil) empty result and no error; with a non-empty outbox it returns,
as defensive copies, the pending entry whose key is lexicographically
smallest among all pending outbox entries. -/
theorem getNextForReplication_min (d : Database) (hs : BSorted d.replicaBucket) :
    (d.replicaBucket = [] → GetNextForReplication d = (none, none)) ∧
    (d.replicaBucket ≠ [] → ∃ k v,
      GetNextForReplication d = (copyByteSlice (some k), copyByteSlice (some v)) ∧
      GetNextForReplication d = (some k, some v) ∧
      bGet d.replicaBucket k = some v ∧
      ∀ p ∈ d.replicaBucket, p.1 = k ∨ bytesLt k p.1 = true) := by
  constructor
  · intro he
    simp [GetNextForReplication, he, bFirst, copyByteSlice]
  · intro hne
    cases hb : d.replicaBucket with
    | nil => exact absurd hb hne
    | cons p rest =>
      obtain ⟨k, v⟩ := p
      refine ⟨k, v, ?_, ?_, ?_, ?_⟩
      · simp [GetNextForReplication, hb, bFirst]
      · simp [GetNextForReplication, hb, bFirst, copyByteSlice_some]
      · simp [bGet]
      · intro q hq
        rcases List.mem_cons.mp hq with h | h
        · exact Or.inl (by rw [h])
        · exact Or.inr ((BSorted_cons (hb ▸ hs)).1 q h)

/-- Witness for claim C4 on an outbox holding two pending entries out of
key order relative to their write order. -/
theorem getNextForReplication_min_witness :
    BSorted (Database.mk [] [([3], [9]), ([5], [7])] false).replicaBucket ∧
    (((Database.mk [] [([3], [9]), ([5], [7])] false).replicaBucket = [] →
        GetNextForReplication (Database.mk [] [([3], [9]), ([5], [7])] false)
          = (none, none)) ∧
      ((Database.mk [] [([3], [9]), ([5], [7])] false).replicaBucket ≠ [] → ∃ k v,
        GetNextForReplication (Database.mk [] [([3], [9]), ([5], [7])] false)
          = (copyByteSlice (some k), copyByteSlice (some v)) ∧
        GetNextForReplication (Database.mk [] [([3], [9]), ([5], [7])] false)
          = (some k, some v) ∧
        bGet (Database.mk [] [([3], [9]), ([5], [7])] false).replicaBucket k = some v ∧
        ∀ p ∈ (Database.mk [] [([3], [9]), ([5], [7])] false).replicaBucket,
          p.1 = k ∨ bytesLt k p.1 = true)) :=
  ⟨by unfold BSorted; decide,
    getNextForReplication_min (Database.mk [] [([3], [9]), ([5], [7])] false)
      (by unfold BSorted; decide)⟩

/-- Claim C5: DeleteExtraKeys runs as a scan phase collecting the keys on
which isExtra holds followed by a separate delete phase removing exactly
that collected set: afterwards an extra key reads as absent and every
other key reads exactly as before. -/
theorem deleteExtraKeys_exact (d : Database) (isExtra : Bytes → Bool) (k : Bytes)
    (hs : BSorted d.defaultBucket) :
    (DeleteExtraKeys d isExtra).defaultBucket
        = deleteCollected d.defaultBucket (collectExtraKeys d.defaultBucket isExtra) ∧
    bGet (DeleteExtraKeys d isExtra).defaultBucket k
        = (if isExtra k = true then none else bGet d.defaultBucket k) := by
  refine ⟨rfl, ?_⟩
  show bGet (deleteCollected d.defaultBucket (collectExtraKeys d.defaultBucket isExtra)) k = _
  rw [bGet_deleteCollected _ _ hs k]
  by_cases hmem : k ∈ collectExtraKeys d.defaultBucket isExtra
  · obtain ⟨hx, v, hv⟩ := mem_collectExtraKeys.mp hmem
    simp [hmem, hx]
  · rw [if_neg hmem]
    by_cases hx : isExtra k = true
    · have hnone : bGet d.defaultBucket k = none := by
        cases hg : bGet d.defaultBucket k with
        | none => rfl
        | some v => exact absurd (mem_collectExtraKeys.mpr ⟨hx, v, bGet_mem hg⟩) hmem
      simp [hx, hnone]
    · simp [hx]

/-- Witness for claim C5: a two-key store where the predicate marks one
key as extra; that key is removed and the other is untouched. -/
theorem deleteExtraKeys_exact_witness :
    BSorted (Database.mk [([1], [2]), ([3], [4])] [] false).defaultBucket ∧
    ((DeleteExtraKeys (Database.mk [([1], [2]), ([3], [4])] [] false)
          (fun b => decide (b = [1]))).defaultBucket
        = deleteCollected (Database.mk [([1], [2]), ([3], [4])] [] false).defaultBucket
            (collectExtraKeys (Database.mk [([1], [2]), ([3], [4])] [] false).defaultBucket
              (fun b => decide (b = [1]))) ∧
      bGet (DeleteExtraKeys (Database.mk [([1], [2]), ([3], [4])] [] false)
          (fun b => decide (b = [1]))).defaultBucket [1]
        = (if (fun b => decide (b = [1])) [1] = true then none
           else bGet (Database.mk [([1], [2]), ([3], [4])] [] false).defaultBucket [1])) :=
  ⟨by unfold BSorted; decide,
    deleteExtraKeys_exact (Database.mk [([1], [2]), ([3], [4])] [] false)
      (fun b => decide (b = [1])) [1] (by unfold BSorted; decide)⟩

/-- Claim C10: in every state reachable from a freshly opened empty store
by any sequence of SetKey, GetKey, GetNextForReplication and
DeleteReplicationKey calls, every key present in the outbox is present in
the primary region with exactly the same value. -/
theorem outbox_mirrors_primary (ro : Bool) (ops : List Op) (k v : Bytes)
    (h : bGet (runOps (NewDatabase ro) ops).replicaBucket k = some v) :
    bGet (runOps (NewDatabase ro) ops).defaultBucket k = some v := by
  obtain ⟨-, -, hm⟩ := storeInv_runOps (storeInv_new ro) ops
  exact hm k v h

/-- Witness for claim C10 after two writes and one acknowledgment. -/
theorem outbox_mirrors_primary_witness :
    bGet (runOps (NewDatabase false)
        [Op.setOp [1] [2], Op.setOp [3] [4], Op.ackOp [3] [4]]).replicaBucket [1]
      = some [2] ∧
    bGet (runOps (NewDatabase false)
        [Op.setOp [1] [2], Op.setOp [3] [4], Op.ackOp [3] [4]]).defaultBucket [1]
      = some [2] :=
  ⟨by decide, outbox_mirrors_primary false
    [Op.setOp [1] [2], Op.setOp [3] [4], Op.ackOp [3] [4]] [1] [2] (by decide)⟩
